import Mathlib

/-!
Verification of the deltadump localization pipeline (`text_utils.py`).

Python dictionaries are modelled as insertion-ordered association lists
`List (String × α)`: lookup finds the first (and, for lists that arise from
dictionaries, only) entry with the given key; store (`d[k] = v`) updates an
existing entry in place and otherwise appends, exactly like a Python dict.
Strings are Lean `String`s; character-level reasoning uses `String.data`.
-/

namespace TextUtils

/-- Lookup in a Python-style insertion-ordered dictionary: `d[k]` / `d.get(k)`. -/
def dget? (d : List (String × α)) (k : String) : Option α :=
  match d with
  | [] => none
  | p :: rest => if p.1 = k then some p.2 else dget? rest k

/-- Lookup with a default value. -/
def dgetD (d : List (String × α)) (k : String) (v₀ : α) : α := (dget? d k).getD v₀

/-- Membership test, modelling Python `k in d`. -/
def dmem (d : List (String × α)) (k : String) : Bool := (dget? d k).isSome

/-- The key list in insertion order, modelling iteration over a Python dict. -/
def dkeys (d : List (String × α)) : List String := d.map (·.1)

/-- Store `d[k] = v`: update the entry in place if the key exists, else append. -/
def dinsert (d : List (String × α)) (k : String) (v : α) : List (String × α) :=
  match d with
  | [] => [(k, v)]
  | p :: rest => if p.1 = k then (k, v) :: rest else p :: dinsert rest k v

/-- Python dict union-update `a |= b`: insert every entry of `b` into `a` in order. -/
def dunion (a b : List (String × α)) : List (String × α) :=
  match b with
  | [] => a
  | p :: rest => dunion (dinsert a p.1 p.2) rest


/-! ### `smartsort` (natural sort key) and Python's `sorted`

`smartsort` (text_utils.py lines 47-53) splits the position token of a
`(token, key)` dict item on `"_"` and left-pads every purely numeric piece
with zeros to width 16 (`str.rjust(16, "0")`), returning a list of strings
used as the sort key.  Python's `sorted` compares such keys as lists of
strings, lexicographically by code point; it is a stable sort, modelled here
by a stable insertion sort. -/

/-- Python `str.split(sep)` for a one-character separator, on character lists. -/
def splitSep (sep : Char) : List Char → List (List Char)
  | [] => [[]]
  | c :: cs =>
    match splitSep sep cs with
    | [] => [[]]
    | p :: ps => if c = sep then [] :: p :: ps else (c :: p) :: ps

/-- Python `str.isdigit` for ASCII data: nonempty and all characters `'0'..'9'`. -/
def isDigitC (c : Char) : Bool := 48 ≤ c.toNat && c.toNat ≤ 57

/-- `isDigitC` lifted to a whole piece (Python `piece.isdigit()`). -/
def isDigitL (cs : List Char) : Bool := !cs.isEmpty && cs.all isDigitC

/-- Python `piece.rjust(16, "0")`: left-pad with zeros to width 16. -/
def rjustL (cs : List Char) : List Char := List.replicate (16 - cs.length) '0' ++ cs

/-- Core of `smartsort` on the token's characters. -/
def smartsortL (cs : List Char) : List (List Char) :=
  (splitSep '_' cs).map (fun p => if isDigitL p then rjustL p else p)

/-- `smartsort(k_and_v)` (text_utils.py lines 47-53): the sort key of a
`(position token, string key)` dict item. -/
def smartsort (kv : String × String) : List (List Char) := smartsortL kv.1.data

/-- Three-way comparison of naturals (`if a < b then lt else if b < a then gt else eq`). -/
def cmpNat (a b : Nat) : Ordering :=
  if a < b then .lt else if b < a then .gt else .eq

/-- Python string comparison: lexicographic by code point. -/
def cmpChars : List Char → List Char → Ordering
  | [], [] => .eq
  | [], _ :: _ => .lt
  | _ :: _, [] => .gt
  | a :: as, b :: bs =>
    match cmpNat a.toNat b.toNat with
    | .eq => cmpChars as bs
    | o => o

/-- Python comparison of lists of strings: lexicographic over `cmpChars`. -/
def cmpKey : List (List Char) → List (List Char) → Ordering
  | [], [] => .eq
  | [], _ :: _ => .lt
  | _ :: _, [] => .gt
  | a :: as, b :: bs =>
    match cmpChars a b with
    | .eq => cmpKey as bs
    | o => o

/-- `<` on smartsort keys, as Python compares them. -/
def keyLt (a b : List (List Char)) : Bool := cmpKey a b == .lt

/-- `≤` on smartsort keys. -/
def keyLe (a b : List (List Char)) : Bool := cmpKey a b != .gt

/-- Stable insertion of an element into a sorted list: the new element goes in
front of the first element it is `le` to, so it stays behind equal elements
that were already present (Python's `sorted` is stable). -/
def insertS (le : α → α → Bool) (x : α) : List α → List α
  | [] => [x]
  | y :: ys => if le x y then x :: y :: ys else y :: insertS le x ys

/-- Stable sort, modelling Python `sorted(items, key=...)` composed with the key. -/
def ssort (le : α → α → Bool) : List α → List α
  | [] => []
  | x :: xs => insertS le x (ssort le xs)


/-! ### `split_dump` (text_utils.py lines 56-140), per chapter

One chapter's raw source map is a dict `key → "filename:lineno"`, modelled as
an ordered association list.  `smLoop` is the loop of lines 81-95: it builds
the nested chapter sourcemap `filename → (position token → key)` with the
running `dupecount` disambiguator; it additionally records the sequence of
stores `ch_sourcemap[filename][lineno] = k` (line 95) so that theorems can
speak about the token each entry was assigned.  A location that does not
split into exactly two pieces around `":"` makes the Python unpacking at
line 83 raise; this is modelled by returning `none`. -/

/-- `filename, lineno = v.split(":")` (text_utils.py line 83); `none` models the
`ValueError` Python raises when the location is not `<filename>:<lineno>`. -/
def splitLoc (v : String) : Option (String × String) :=
  match splitSep ':' v.data with
  | [f, l] => some (String.mk f, String.mk l)
  | _ => none

/-- The duplicate-location counter of text_utils.py lines 70-75: one pass over
the chapter's locations, incrementing a per-location count. -/
def buildDupMap (entries : List (String × String)) : List (String × Nat) :=
  entries.foldl
    (fun m p =>
      match dget? m p.2 with
      | none => m ++ [(p.2, 1)]
      | some n => dinsert m p.2 (n + 1)) []

/-- The number of entries of the chapter whose location is `v` (specification-
level counting used to characterise `buildDupMap`). -/
def countOcc (v : String) (entries : List (String × String)) : Nat :=
  (entries.filter (fun p => p.2 = v)).length

/-- Nested store `ch_sourcemap[filename][lineno] = k` (lines 84-87 and 95):
fetch the file's dict (creating it empty if missing), store, and put it back. -/
def dinsert2 (sm : List (String × List (String × String))) (f tok k : String) :
    List (String × List (String × String)) :=
  dinsert sm f (dinsert (dgetD sm f []) tok k)

/-- One store recorded by the sourcemap loop: (filename, position token, key). -/
abbrev Store := String × String × String

/-- State of the sourcemap-rebuilding loop: the nested sourcemap under
construction, the running `dupecount`, and the trace of stores so far. -/
abbrev SMState := List (String × List (String × String)) × Nat × List Store

/-- The sourcemap-rebuilding loop of text_utils.py lines 81-95.  Returns the
final state, or `none` when a location fails to unpack (Python raises at
line 83 and the run aborts).  The trace component records each store
`ch_sourcemap[filename][lineno] = k` of line 95 in execution order. -/
def smLoop (dups : List (String × Nat)) :
    SMState → List (String × String) → Option SMState
  | st, [] => some st
  | (sm, dc, tr), (k, v) :: rest =>
    match splitLoc v with
    | none => none
    | some (filename, lineno) =>
      if dgetD dups v 0 > 1 then
        let tok := lineno ++ "_" ++ toString (dc + 1)
        smLoop dups (dinsert2 sm filename tok k, dc + 1, tr ++ [(filename, tok, k)]) rest
      else
        smLoop dups (dinsert2 sm filename lineno k, 0, tr ++ [(filename, lineno, k)]) rest

/-- Sorting one file's `token → key` dict by the natural sort key
(text_utils.py lines 96-97): `dict(sorted(d.items(), key=smartsort))`. -/
def sortObj (o : List (String × String)) : List (String × String) :=
  ssort (fun a b => keyLe (smartsort a) (smartsort b)) o

/-- The chapter sourcemap written to `chapter<N>/sourcemap.json`
(text_utils.py lines 64-99): rebuild, then sort each file's entries. -/
def buildChSourcemap (entries : List (String × String)) :
    Option (List (String × List (String × String))) :=
  (smLoop (buildDupMap entries) ([], 0, []) entries).map
    (fun st => st.1.map (fun p => (p.1, sortObj p.2)))

/-- The trace of stores the sourcemap loop performs on a chapter. -/
def chTraceOf (entries : List (String × String)) : Option (List Store) :=
  (smLoop (buildDupMap entries) ([], 0, []) entries).map (·.2.2)

/-! ### `split_dump`, per-language pass (text_utils.py lines 101-140) -/

/-- Inner loop of lines 109-115 for one file: walk the file's sorted
`token → key` entries, look each key up in the chapter's raw string map
(skipping keys that are missing, line 112-114), and record the value both in
the running `lang_strings` and in the file's `obj_strings`. -/
def buildObj (rawL : List (String × String)) :
    List (String × String) × List (String × String) → List (String × String) →
    List (String × String) × List (String × String)
  | acc, [] => acc
  | (ls, ob), (_, k) :: rest =>
    match dget? rawL k with
    | none => buildObj rawL (ls, ob) rest
    | some sv => buildObj rawL (dinsert ls k sv, dinsert ob k sv) rest

/-- Outer loop of lines 106-119: for every file of the chapter sourcemap,
build its per-file object (started empty) while threading `lang_strings`;
collect the per-file objects in order. -/
def splitLangObjs (rawL : List (String × String)) :
    List (String × String) × List (String × List (String × String)) →
    List (String × List (String × String)) →
    List (String × String) × List (String × List (String × String))
  | acc, [] => acc
  | (ls, objs), (f, fe) :: rest =>
    let r := buildObj rawL (ls, []) fe
    splitLangObjs rawL (r.1, objs ++ [(f, r.2)]) rest

/-- The orphan pass of lines 122-131: every raw string-map key that was not
emitted into `lang_strings` and is not `"date"` goes into the orphan object. -/
def buildOrphan (rawL ls : List (String × String)) : List (String × String) :=
  rawL.foldl
    (fun o p =>
      if dmem ls p.1 then o
      else if p.1 = "date" then o
      else dinsert o p.1 p.2) []

/-! ### `compile_lang` (text_utils.py lines 143-174)

`compileModel` is the pure core: it receives, for each file found under the
base language's object directory (in iteration order), the parsed base
object together with the parsed target-language object of the same name, or
`none` when that file does not exist (the `FileNotFoundError` branch of
lines 156-159 turns `none` into an empty dict).  Division by zero in the
progress computation at line 167 raises `ZeroDivisionError` in Python; this
is modelled by `Except.error`. -/

/-- Loop of lines 160-164 over one base object's keys: keys present in the
target object take the target value and are counted as translated. -/
def mergeLoop (tgt : List (String × String)) :
    List (String × String) × Nat → List (String × String) →
    List (String × String) × Nat
  | acc, [] => acc
  | (cur, c), (k, _) :: rest =>
    match dget? tgt k with
    | none => mergeLoop tgt (cur, c) rest
    | some v => mergeLoop tgt (dinsert cur k v, c + 1) rest

/-- Merge one base object with its target object (lines 155-164). -/
def mergeFile (base tgt : List (String × String)) : List (String × String) × Nat :=
  mergeLoop tgt (base, 0) base

/-- Lines 156-159: a missing target-language file is treated as an empty dict. -/
def loadTgt (o : Option (List (String × String))) : List (String × String) := o.getD []

/-- Loop of lines 154-165 over all base object files: merge each file and
union it into the output document, accumulating the translated count. -/
def compileCore :
    List (String × String) × Nat →
    List (List (String × String) × Option (List (String × String))) →
    List (String × String) × Nat
  | acc, [] => acc
  | (d, t), (b, tOpt) :: rest =>
    let r := mergeFile b (loadTgt tOpt)
    compileCore (dunion d r.1, t + r.2) rest

/-- `compile_lang`'s in-memory computation (lines 149-168): the output
document (headed by the `"date"` entry), the translated count, and a
progress percentage; an error models the `ZeroDivisionError` raised when
`count_all` is zero.  The progress arm idealises line 167's
`int((count_translated / count_all) * 100)` as the exact floor
`t * 100 / ca`; line 167 actually evaluates it in binary64 floating point,
which is embedded faithfully by `pyProgress` below and does NOT always equal
this floor (e.g. 29 of 100). -/
def compileModel
    (files : List (List (String × String) × Option (List (String × String))))
    (date : String) : Except String (List (String × String) × Nat × Nat) :=
  let r := compileCore ([("date", date)], 0) files
  let ca := r.1.length - 1
  if ca = 0 then Except.error "ZeroDivisionError"
  else Except.ok (r.1, r.2, r.2 * 100 / ca)

/-! #### Binary64 model of line 167's progress expression

Python floats are IEEE-754 binary64 with correctly rounded `/` and `*`
(round-to-nearest, ties to even).  A positive finite double is `m · 2^u`
with `2^52 ≤ m < 2^53`.  The model below rounds a positive rational to that
grid and evaluates `int((t / ca) * 100)` exactly as the interpreter does;
subnormal and overflowing magnitudes never arise for string counts. -/

/-- `⌊log₂ n⌋` for `n ≥ 1`, by fuelled halving (128 fuel covers every
magnitude the progress computation can produce). -/
def log2f : Nat → Nat → Nat
  | 0, _ => 0
  | fuel + 1, n => if 2 ≤ n then log2f fuel (n / 2) + 1 else 0

/-- `2^k ≤ p/q`, decided in integers. -/
def pow2LE (k : Int) (p q : Nat) : Bool :=
  if 0 ≤ k then q * 2 ^ k.toNat ≤ p else q ≤ p * 2 ^ (-k).toNat

/-- The binade exponent `e` with `2^e ≤ p/q < 2^(e+1)` for positive `p/q`. -/
def binadeExp (p q : Nat) : Int :=
  let e0 : Int := (log2f 128 p : Int) - (log2f 128 q : Int)
  if pow2LE (e0 + 1) p q then e0 + 1
  else if pow2LE e0 p q then e0 else e0 - 1

/-- Round the positive rational `p/q` to the nearest binary64 value
(round-to-nearest, ties to even); the result represents `m · 2^u`. -/
def roundB64 (p q : Nat) : Nat × Int :=
  let u : Int := binadeExp p q - 52
  let N : Nat := p * 2 ^ (-u).toNat
  let D : Nat := q * 2 ^ u.toNat
  let d := N / D
  let r := N % D
  let m := if 2 * r < D then d
           else if D < 2 * r then d + 1
           else if d % 2 = 0 then d else d + 1
  (m, u)

/-- Line 167 as the interpreter evaluates it:
`int((count_translated / count_all) * 100)` — correctly rounded binary64
division, exact multiplication by 100 followed by rounding, truncation
toward zero. -/
def pyProgress (t ca : Nat) : Nat :=
  let r1 := roundB64 t ca
  let p2 := 100 * r1.1 * 2 ^ r1.2.toNat
  let q2 := 2 ^ (-r1.2).toNat
  let r2 := roundB64 p2 q2
  if 0 ≤ r2.2 then r2.1 * 2 ^ r2.2.toNat else r2.1 / 2 ^ (-r2.2).toNat

/-! ### `init_lang` (text_utils.py lines 186-202), one chapter

The target-language object directory is modelled as an association list from
filename to parsed content.  `ls_new` is listed before any file is created,
exactly as in the source. -/

/-- `init_lang`'s effect on one chapter's target directory: create an empty
object file for every base filename that is missing, then delete every file
whose name (as listed before creation) is not a base filename. -/
def initModel (lsBase : List String) (tgt : List (String × List (String × String))) :
    List (String × List (String × String)) :=
  let lsNew := tgt.map (·.1)
  let afterCreate :=
    lsBase.foldl (fun fs name => if dmem fs name then fs else fs ++ [(name, [])]) tgt
  (lsNew.filter (fun n => !lsBase.contains n)).foldl
    (fun fs n => fs.filter (fun p => decide (p.1 ≠ n))) afterCreate

/-! ### The files written by a full `split_dump` run (for idempotence)

A run of `split_dump` touches a set of paths: it writes each chapter's
`sourcemap.json`, and writes or deletes each per-file object and each orphan
object (`rmfile` deletes the file if present, so its net effect is that the
path is absent).  File contents are JSON documents produced by `json.dump`
with fixed options, which is deterministic, so a content is identified with
the dictionary written. -/

/-- Content of a written JSON file: a flat string map or a nested sourcemap. -/
inductive FileContent where
  | flat (d : List (String × String))
  | nested (d : List (String × List (String × String)))

/-- One file-system effect: write the content to a path, or ensure the path
is absent (`none`, `rmfile`). -/
abbrev Action := String × Option FileContent

/-- The file system: paths to contents. -/
abbrev FS := String → Option FileContent

/-- Apply one action. -/
def applyAct (fs : FS) (a : Action) : FS := fun q => if q = a.1 then a.2 else fs q

/-- Apply a run's actions in order. -/
def applyActs (fs : FS) (acts : List Action) : FS := acts.foldl applyAct fs

/-- The fixed chapter list (text_utils.py line 15). -/
def CHAPTERS : List String := ["1", "2", "3", "4"]

/-- The fixed language list (text_utils.py line 16). -/
def LANGS : List String := ["en", "ja"]

/-- Python `str.removesuffix`. -/
def removesuffix (s suf : String) : String :=
  if s.endsWith suf then s.dropRight suf.length else s

/-- Path of a per-file object: `chapter<N>/<lang>/obj/<file>.json` (line 107). -/
def objPath (ch lang filename : String) : String :=
  "chapter" ++ ch ++ "/" ++ lang ++ "/obj/" ++ removesuffix filename ".gml" ++ ".json"

/-- Path of the orphan object (line 123). -/
def orphanPath (ch lang : String) : String :=
  "chapter" ++ ch ++ "/" ++ lang ++ "/obj/orphan.json"

/-- Path of a chapter sourcemap (line 98). -/
def smPath (ch : String) : String := "chapter" ++ ch ++ "/sourcemap.json"

/-- Concatenation of a list of lists. -/
def concatAll : List (List α) → List α
  | [] => []
  | l :: ls => l ++ concatAll ls

/-- The write/delete actions of the per-language pass for one chapter
(lines 101-135): write or delete each per-file object, then write or delete
the orphan object. -/
def langActions (ch lang : String) (sm : List (String × List (String × String)))
    (rawL : List (String × String)) : List Action :=
  let r := splitLangObjs rawL ([], []) sm
  let objActs : List Action := r.2.map
    (fun p => (objPath ch lang p.1,
      if p.2.isEmpty then none else some (FileContent.flat p.2)))
  let orphan := buildOrphan rawL r.1
  objActs ++
    [(orphanPath ch lang,
      if orphan.isEmpty then none else some (FileContent.flat orphan))]

/-- All file actions of one chapter of `split_dump` (lines 64-135): the
chapter sourcemap write followed by every language's actions; `none` when the
sourcemap rebuild raises. -/
def chapterActions (ch : String) (entries : List (String × String))
    (rawLangCh : String → List (String × String)) : Option (List Action) :=
  match buildChSourcemap entries with
  | none => none
  | some sm =>
    some ((smPath ch, some (FileContent.nested sm)) ::
      concatAll (LANGS.map (fun lang => langActions ch lang sm (rawLangCh lang))))

/-- The file actions of a full `split_dump` run over all chapters, given the
loaded `sourcemap.json` (chapter → entries) and `lang.json`
(chapter → language → string map); `none` when the run raises. -/
def splitActions (rawSM : String → List (String × String))
    (rawLang : String → String → List (String × String)) : Option (List Action) :=
  CHAPTERS.foldl
    (fun acc ch =>
      match acc, chapterActions ch (rawSM ch) (rawLang ch) with
      | some as, some bs => some (as ++ bs)
      | _, _ => none) (some [])

/-- The last action a run performs on a path, if any (used to characterise
`applyActs`). -/
def lastWrite (acts : List Action) (q : String) : Option (Option FileContent) :=
  (acts.reverse.find? (fun a => decide (a.1 = q))).map (·.2)

/-- Concrete `sourcemap.json` input for exercising a full `split_dump` run:
every chapter maps two keys to the same location. -/
def rsW : String → List (String × String) :=
  fun _ => [("k1", "a.gml:1"), ("k2", "a.gml:1")]

/-- Concrete `lang.json` input for exercising a full `split_dump` run. -/
def rlW : String → String → List (String × String) :=
  fun _ _ => [("k1", "hello"), ("date", "123"), ("zz", "orphaned")]

/-- The actions of the concrete `split_dump` run on `rsW`/`rlW`. -/
def actsW : List Action := (splitActions rsW rlW).getD []

/-- The empty file system. -/
def fsW : FS := fun _ => none

/-- `compile_lang`'s effect on the file system (lines 169-174): the output
document is written only when the computation did not raise; on
`ZeroDivisionError` the process aborts with the file system unchanged. -/
def compileRun (fs : FS) (path : String)
    (files : List (List (String × String) × Option (List (String × String))))
    (date : String) : FS :=
  match compileModel files date with
  | Except.error _ => fs
  | Except.ok r => applyAct fs (path, some (FileContent.flat r.1))

/-! ### Specification-side definitions

These follow the spec's words, for comparison against the source-derived
definitions above. -/

/-- Numeric value of a digit string (for comparing `smartsort` keys with
numeric comparison, as the spec's Natural Sort Key property states). -/
def valL : List Char → Nat
  | [] => 0
  | c :: cs => (c.toNat - 48) * 10 ^ cs.length + valL cs

/-- Token assignment as the spec words it: if this entry's location occurs
more than once in the chapter, append `_N` with `N` the counter's value after
the increment; otherwise the bare line number. -/
def specTok (occ : String → Nat) (dc : Nat) (lineno v : String) : String :=
  if occ v > 1 then lineno ++ "_" ++ toString (dc + 1) else lineno

/-- Counter evolution as the spec words it: increment on every entry whose
location occurs more than once, reset to 0 on every entry whose location
occurs only once. -/
def specNext (occ : String → Nat) (dc : Nat) (v : String) : Nat :=
  if occ v > 1 then dc + 1 else 0

/-- The store sequence predicted by the spec's description of the
disambiguator, driven by the occurrence count `occ`. -/
def specTrace (occ : String → Nat) (dc : Nat) :
    List (String × String) → Option (List Store)
  | [] => some []
  | (k, v) :: rest =>
    match splitLoc v with
    | none => none
    | some (f, l) =>
      (specTrace occ (specNext occ dc v) rest).map
        (fun tr => (f, specTok occ dc l v, k) :: tr)

/-! ## Lemmas and theorems -/

@[simp] theorem dget?_nil (k : String) : dget? ([] : List (String × α)) k = none := rfl

@[simp] theorem dget?_cons (p : String × α) (d : List (String × α)) (k : String) :
    dget? (p :: d) k = if p.1 = k then some p.2 else dget? d k := rfl

@[simp] theorem dinsert_nil (k : String) (v : α) :
    dinsert ([] : List (String × α)) k v = [(k, v)] := rfl

@[simp] theorem dinsert_cons (p : String × α) (d : List (String × α)) (k : String) (v : α) :
    dinsert (p :: d) k v = if p.1 = k then (k, v) :: d else p :: dinsert d k v := rfl

@[simp] theorem dkeys_nil : dkeys ([] : List (String × α)) = [] := rfl

@[simp] theorem dkeys_cons (p : String × α) (d : List (String × α)) :
    dkeys (p :: d) = p.1 :: dkeys d := rfl

theorem dget?_dinsert_self (d : List (String × α)) (k : String) (v : α) :
    dget? (dinsert d k v) k = some v := by
  induction d with
  | nil => simp
  | cons p rest ih =>
    by_cases h : p.1 = k <;> simp [h, ih]

theorem dget?_dinsert_ne (d : List (String × α)) (k k' : String) (v : α) (h : k' ≠ k) :
    dget? (dinsert d k v) k' = dget? d k' := by
  induction d with
  | nil => simp [Ne.symm h]
  | cons p rest ih =>
    by_cases hp : p.1 = k
    · subst hp
      simp [Ne.symm h]
    · by_cases hq : p.1 = k'
      · simp [hq, h]
      · simp [hp, hq, ih]

theorem mem_dinsert (d : List (String × α)) (k : String) (v : α) (p : String × α)
    (h : p ∈ dinsert d k v) : p ∈ d ∨ p = (k, v) := by
  induction d with
  | nil =>
    simp at h
    exact Or.inr h
  | cons q rest ih =>
    by_cases hq : q.1 = k
    · simp [hq] at h
      rcases h with h | h
      · exact Or.inr h
      · exact Or.inl (List.mem_cons_of_mem _ h)
    · simp [hq] at h
      rcases h with h | h
      · exact Or.inl (by simp [h])
      · rcases ih h with h' | h'
        · exact Or.inl (List.mem_cons_of_mem _ h')
        · exact Or.inr h'

theorem mem_dkeys_dinsert (d : List (String × α)) (k k' : String) (v : α) :
    k' ∈ dkeys (dinsert d k v) ↔ k' ∈ dkeys d ∨ k' = k := by
  induction d with
  | nil => simp
  | cons p rest ih =>
    by_cases hp : p.1 = k
    · subst hp
      simp
      tauto
    · simp [hp, ih]
      tauto

theorem dkeys_nodup_dinsert (d : List (String × α)) (k : String) (v : α)
    (h : (dkeys d).Nodup) : (dkeys (dinsert d k v)).Nodup := by
  induction d with
  | nil => simp
  | cons p rest ih =>
    simp at h
    by_cases hp : p.1 = k
    · subst hp
      simpa using h
    · simp [hp]
      refine ⟨?_, ih h.2⟩
      intro hmem
      rcases (mem_dkeys_dinsert rest k p.1 v).1 hmem with h' | h'
      · exact h.1 h'
      · exact hp h'

theorem dget?_eq_none_iff (d : List (String × α)) (k : String) :
    dget? d k = none ↔ k ∉ dkeys d := by
  induction d with
  | nil => simp
  | cons p rest ih =>
    by_cases hp : p.1 = k
    · simp [hp]
    · simp [hp, ih, Ne.symm hp]

theorem dget?_isSome_iff (d : List (String × α)) (k : String) :
    (dget? d k).isSome = true ↔ k ∈ dkeys d := by
  rw [Option.isSome_iff_ne_none]
  constructor
  · intro h
    by_contra hk
    exact h ((dget?_eq_none_iff d k).2 hk)
  · intro h hnone
    exact ((dget?_eq_none_iff d k).1 hnone) h

theorem dget?_mem (d : List (String × α)) (k : String) (v : α) (h : dget? d k = some v) :
    (k, v) ∈ d := by
  induction d with
  | nil => simp at h
  | cons p rest ih =>
    by_cases hp : p.1 = k
    · simp [hp] at h
      have hpv : p = (k, v) := by
        cases p
        simp at hp h ⊢
        exact ⟨hp, h⟩
      rw [← hpv]
      exact List.mem_cons_self p rest
    · simp [hp] at h
      exact List.mem_cons_of_mem _ (ih h)

theorem mem_dget? (d : List (String × α)) (k : String) (v : α)
    (hnd : (dkeys d).Nodup) (h : (k, v) ∈ d) : dget? d k = some v := by
  induction d with
  | nil => simp at h
  | cons p rest ih =>
    simp at hnd
    rcases List.mem_cons.1 h with h | h
    · rw [← h]
      simp
    · have hk : k ∈ dkeys rest := List.mem_map_of_mem _ h
      have hne : p.1 ≠ k := fun he => hnd.1 (he ▸ hk)
      simp [hne]
      exact ih hnd.2 h

theorem mem_insertS (le : α → α → Bool) (x a : α) (l : List α) :
    a ∈ insertS le x l ↔ a = x ∨ a ∈ l := by
  induction l with
  | nil => simp [insertS]
  | cons y ys ih =>
    by_cases h : le x y = true
    · simp [insertS, h]
    · simp [insertS, h, ih]
      tauto

theorem mem_ssort (le : α → α → Bool) (a : α) (l : List α) :
    a ∈ ssort le l ↔ a ∈ l := by
  induction l with
  | nil => simp [ssort]
  | cons x xs ih => simp [ssort, mem_insertS, ih]

theorem insertS_perm (le : α → α → Bool) (x : α) (l : List α) :
    (insertS le x l).Perm (x :: l) := by
  induction l with
  | nil => simp [insertS]
  | cons y ys ih =>
    by_cases h : le x y = true
    · simp [insertS, h]
    · simp only [insertS, if_neg h]
      exact (List.Perm.cons y ih).trans (List.Perm.swap x y ys)

theorem ssort_perm (le : α → α → Bool) (l : List α) : (ssort le l).Perm l := by
  induction l with
  | nil => simp [ssort]
  | cons x xs ih =>
    exact ((insertS_perm le x (ssort le xs)).trans (List.Perm.cons x ih))

/-! ### Helper lemmas for `compile_lang` -/

theorem mergeLoop_empty_tgt (l : List (String × String))
    (acc : List (String × String) × Nat) : mergeLoop [] acc l = acc := by
  induction l generalizing acc with
  | nil => rfl
  | cons p rest ih => exact ih acc

theorem mergeFile_empty_tgt (b : List (String × String)) : mergeFile b [] = (b, 0) :=
  mergeLoop_empty_tgt b (b, 0)

theorem compileCore_all_empty
    (files : List (List (String × String) × Option (List (String × String))))
    (acc : List (String × String) × Nat) (h : ∀ f ∈ files, f.1 = []) :
    compileCore acc files = acc := by
  induction files generalizing acc with
  | nil => rfl
  | cons f rest ih =>
    obtain ⟨b, tOpt⟩ := f
    have hb : b = [] := h _ (List.mem_cons_self _ _)
    subst hb
    obtain ⟨d, t⟩ := acc
    show compileCore (dunion d (mergeFile [] (loadTgt tOpt)).1,
      t + (mergeFile [] (loadTgt tOpt)).2) rest = (d, t)
    have hm : mergeFile [] (loadTgt tOpt) = ([], 0) := rfl
    rw [hm]
    exact ih (d, t) (fun f hf => h f (List.mem_cons_of_mem _ hf))

theorem compileCore_target_none_eq_empty
    (bases : List (List (String × String))) (acc : List (String × String) × Nat) :
    compileCore acc (bases.map (fun b => (b, none))) =
      compileCore acc (bases.map (fun b => (b, some []))) := by
  induction bases generalizing acc with
  | nil => rfl
  | cons b rest ih =>
    show compileCore (dunion acc.1 (mergeFile b (loadTgt none)).1,
        acc.2 + (mergeFile b (loadTgt none)).2) (rest.map (fun b => (b, none))) =
      compileCore (dunion acc.1 (mergeFile b (loadTgt (some []))).1,
        acc.2 + (mergeFile b (loadTgt (some []))).2) (rest.map (fun b => (b, some [])))
    exact ih _

/-! ### Helper lemmas for the duplicate counter -/

theorem dget?_append (m1 m2 : List (String × α)) (k : String) :
    dget? (m1 ++ m2) k = (dget? m1 k).or (dget? m2 k) := by
  induction m1 with
  | nil => simp
  | cons p rest ih =>
    by_cases hp : p.1 = k <;> simp [hp, ih]

theorem countOcc_cons (e : String × String) (rest : List (String × String)) (v : String) :
    countOcc v (e :: rest) = (if e.2 = v then 1 else 0) + countOcc v rest := by
  by_cases h : e.2 = v
  · simp [countOcc, h]
    omega
  · simp [countOcc, h]

/-- The duplicate-count dict of lines 70-75 holds, for every location, the
number of entries that carry it. -/
theorem buildDupMap_count (entries : List (String × String)) (v : String) :
    dgetD (buildDupMap entries) v 0 = countOcc v entries := by
  suffices h : ∀ (es : List (String × String)) (acc : List (String × Nat)),
      dgetD (es.foldl (fun m p => match dget? m p.2 with
        | none => m ++ [(p.2, 1)]
        | some n => dinsert m p.2 (n + 1)) acc) v 0 = dgetD acc v 0 + countOcc v es by
    have := h entries []
    simpa [buildDupMap, dgetD, countOcc] using this
  intro es
  induction es with
  | nil =>
    intro acc
    simp [countOcc]
  | cons e rest ih =>
    intro acc
    rw [List.foldl_cons, ih, countOcc_cons]
    have hstep : dgetD (match dget? acc e.2 with
        | none => acc ++ [(e.2, 1)]
        | some n => dinsert acc e.2 (n + 1)) v 0 =
        dgetD acc v 0 + (if e.2 = v then 1 else 0) := by
      cases hacc : dget? acc e.2 with
      | none =>
        by_cases hv : e.2 = v
        · subst hv
          simp [dgetD, dget?_append, hacc]
        · simp [dgetD, dget?_append, hv]
      | some n =>
        by_cases hv : e.2 = v
        · subst hv
          simp [dgetD, hacc, dget?_dinsert_self]
        · simp [dgetD, dget?_dinsert_ne acc e.2 v (n + 1) (fun he => hv he.symm), hv]
    rw [hstep]
    omega

/-- The trace the sourcemap loop produces agrees with the spec-side
description of the disambiguation counter, whenever the duplicate dict
agrees with the occurrence counts. -/
theorem smLoop_spec_trace (occ : String → Nat) (dups : List (String × Nat))
    (hocc : ∀ v, dgetD dups v 0 = occ v) :
    ∀ (es : List (String × String)) (sm : List (String × List (String × String)))
      (dc : Nat) (tr : List Store) (st' : SMState),
      smLoop dups (sm, dc, tr) es = some st' →
      ∃ δ, specTrace occ dc es = some δ ∧ st'.2.2 = tr ++ δ := by
  intro es
  induction es with
  | nil =>
    intro sm dc tr st' h
    simp [smLoop] at h
    refine ⟨[], rfl, ?_⟩
    rw [← h]
    simp
  | cons e rest ih =>
    intro sm dc tr st' h
    obtain ⟨k, v⟩ := e
    simp only [smLoop] at h
    cases hsl : splitLoc v with
    | none => rw [hsl] at h; simp at h
    | some fl =>
      obtain ⟨f, l⟩ := fl
      rw [hsl] at h
      simp only at h
      rw [hocc v] at h
      by_cases hgt : occ v > 1
      · rw [if_pos hgt] at h
        obtain ⟨δ', hδ', htr⟩ := ih _ _ _ _ h
        refine ⟨(f, l ++ "_" ++ toString (dc + 1), k) :: δ', ?_, ?_⟩
        · simp [specTrace, hsl, specNext, specTok, hgt, hδ']
        · rw [htr]
          simp
      · rw [if_neg hgt] at h
        obtain ⟨δ', hδ', htr⟩ := ih _ _ _ _ h
        refine ⟨(f, l, k) :: δ', ?_, ?_⟩
        · simp [specTrace, hsl, specNext, specTok, hgt, hδ']
        · rw [htr]
          simp

theorem countOcc_eq_zero (es : List (String × String)) (v : String)
    (h : ∀ e ∈ es, e.2 ≠ v) : countOcc v es = 0 := by
  induction es with
  | nil => rfl
  | cons e rest ih =>
    rw [countOcc_cons, if_neg (h e (List.mem_cons_self _ _))]
    simpa using ih (fun e' he' => h e' (List.mem_cons_of_mem _ he'))

theorem countOcc_append (l1 l2 : List (String × String)) (v : String) :
    countOcc v (l1 ++ l2) = countOcc v l1 + countOcc v l2 := by
  simp [countOcc, List.filter_append]

theorem countOcc_eq_zero_of_not_mem (es : List (String × String)) (v : String)
    (h : v ∉ es.map (·.2)) : countOcc v es = 0 :=
  countOcc_eq_zero es v (fun _ he hev => h (hev ▸ List.mem_map_of_mem _ he))

theorem countOcc_eq_one_of_nodup (es : List (String × String)) (e : String × String)
    (hnd : (es.map (·.2)).Nodup) (he : e ∈ es) : countOcc e.2 es = 1 := by
  induction es with
  | nil => simp at he
  | cons x rest ih =>
    rw [List.map_cons] at hnd
    have hx2 : x.2 ∉ rest.map (·.2) := (List.nodup_cons.1 hnd).1
    have hrest : (rest.map (·.2)).Nodup := (List.nodup_cons.1 hnd).2
    rcases List.mem_cons.1 he with he | he
    · subst he
      rw [countOcc_cons, if_pos rfl, countOcc_eq_zero_of_not_mem rest e.2 hx2]
    · have h2 : e.2 ∈ rest.map (·.2) := List.mem_map_of_mem _ he
      have hx : x.2 ≠ e.2 := by
        intro hxe
        rw [hxe] at hx2
        exact hx2 h2
      rw [countOcc_cons, if_neg hx]
      simpa using ih hrest he

/-- Running the sourcemap loop over a concatenation is running it over the
first part and continuing from the state reached. -/
theorem smLoop_append (dups : List (String × Nat)) (xs ys : List (String × String)) :
    ∀ st : SMState, smLoop dups st (xs ++ ys) =
      (smLoop dups st xs).bind (fun st' => smLoop dups st' ys) := by
  induction xs with
  | nil => intro st; simp [smLoop]
  | cons e rest ih =>
    intro st
    obtain ⟨sm, dc, tr⟩ := st
    obtain ⟨k, v⟩ := e
    simp only [List.cons_append, smLoop]
    cases hsl : splitLoc v with
    | none => simp
    | some fl =>
      obtain ⟨f, l⟩ := fl
      by_cases hgt : dgetD dups v 0 > 1 <;> simp [hgt, ih]

/-- Over entries whose locations are well-formed and unrepeated, the loop
succeeds, keeps the counter at 0, and only appends to the trace. -/
theorem smLoop_nondup (dups : List (String × Nat)) :
    ∀ (es : List (String × String)) (sm : List (String × List (String × String)))
      (tr : List Store),
      (∀ e ∈ es, (splitLoc e.2).isSome = true) →
      (∀ e ∈ es, dgetD dups e.2 0 ≤ 1) →
      ∃ sm' δ, smLoop dups (sm, 0, tr) es = some (sm', 0, tr ++ δ) := by
  intro es
  induction es with
  | nil =>
    intro sm tr _ _
    exact ⟨sm, [], by simp [smLoop]⟩
  | cons e rest ih =>
    intro sm tr hwf hle
    obtain ⟨k, v⟩ := e
    cases hsl : splitLoc v with
    | none =>
      have := hwf (k, v) (List.mem_cons_self _ _)
      rw [hsl] at this
      simp at this
    | some fl =>
      obtain ⟨f, l⟩ := fl
      have hgt : ¬ dgetD dups v 0 > 1 := by
        have h1 : dgetD dups v 0 ≤ 1 := hle (k, v) (List.mem_cons_self _ _)
        omega
      obtain ⟨sm', δ, hrun⟩ := ih (dinsert2 sm f l k) (tr ++ [(f, l, k)])
        (fun e he => hwf e (List.mem_cons_of_mem _ he))
        (fun e he => hle e (List.mem_cons_of_mem _ he))
      refine ⟨sm', (f, l, k) :: δ, ?_⟩
      simp only [smLoop, hsl, if_neg hgt]
      rw [hrun]
      simp

/-- Over well-formed locations the loop always succeeds and only appends to
the trace. -/
theorem smLoop_total (dups : List (String × Nat)) :
    ∀ (es : List (String × String)) (st : SMState),
      (∀ e ∈ es, (splitLoc e.2).isSome = true) →
      ∃ st', smLoop dups st es = some st' ∧ ∃ δ, st'.2.2 = st.2.2 ++ δ := by
  intro es
  induction es with
  | nil =>
    intro st _
    exact ⟨st, rfl, [], by simp⟩
  | cons e rest ih =>
    intro st hwf
    obtain ⟨sm, dc, tr⟩ := st
    obtain ⟨k, v⟩ := e
    cases hsl : splitLoc v with
    | none =>
      have := hwf (k, v) (List.mem_cons_self _ _)
      rw [hsl] at this
      simp at this
    | some fl =>
      obtain ⟨f, l⟩ := fl
      by_cases hgt : dgetD dups v 0 > 1
      · obtain ⟨st', hrun, δ, htr⟩ := ih
          (dinsert2 sm f (l ++ "_" ++ toString (dc + 1)) k, dc + 1,
            tr ++ [(f, l ++ "_" ++ toString (dc + 1), k)])
          (fun e he => hwf e (List.mem_cons_of_mem _ he))
        refine ⟨st', ?_, (f, l ++ "_" ++ toString (dc + 1), k) :: δ, ?_⟩
        · simp only [smLoop, hsl, if_pos hgt]
          exact hrun
        · rw [htr]
          simp
      · obtain ⟨st', hrun, δ, htr⟩ := ih (dinsert2 sm f l k, 0, tr ++ [(f, l, k)])
          (fun e he => hwf e (List.mem_cons_of_mem _ he))
        refine ⟨st', ?_, (f, l, k) :: δ, ?_⟩
        · simp only [smLoop, hsl, if_neg hgt]
          exact hrun
        · rw [htr]
          simp

/-- Two consecutive entries at the duplicated location `"file.gml:42"`,
reached with counter 0, are stored with tokens `"42_1"` and `"42_2"`. -/
theorem smLoop_two_dups (dups : List (String × Nat))
    (sm1 : List (String × List (String × String))) (tr : List Store)
    (k1 k2 : String) (post : List (String × String))
    (hL : dgetD dups "file.gml:42" 0 = 2)
    (hwf : ∀ e ∈ post, (splitLoc e.2).isSome = true) :
    ∃ st', smLoop dups (sm1, 0, tr)
        ((k1, "file.gml:42") :: (k2, "file.gml:42") :: post) = some st' ∧
      ∃ δ, st'.2.2 =
        tr ++ ("file.gml", "42_1", k1) :: ("file.gml", "42_2", k2) :: δ := by
  have hs : splitLoc "file.gml:42" = some ("file.gml", "42") := rfl
  have hgt : dgetD dups "file.gml:42" 0 > 1 := by omega
  have ht1 : ("42" : String) ++ "_" ++ toString (0 + 1) = "42_1" := rfl
  have ht2 : ("42" : String) ++ "_" ++ toString (1 + 1) = "42_2" := rfl
  obtain ⟨st', hrun, δ, htr⟩ := smLoop_total dups post
    (dinsert2 (dinsert2 sm1 "file.gml" "42_1" k1) "file.gml" "42_2" k2, 2,
      (tr ++ [("file.gml", "42_1", k1)]) ++ [("file.gml", "42_2", k2)]) hwf
  refine ⟨st', ?_, δ, ?_⟩
  · simp only [smLoop, hs, if_pos hgt, ht1, ht2]
    exact hrun
  · rw [htr]
    simp

/-- C2, amended: for a Raw Source Map in which exactly two keys map to
`"file.gml:42"` as consecutive entries and no other entry has a repeated
location, the Splitter assigns those two keys the position tokens `"42_1"`
and `"42_2"` in encounter order — not `"42"` and `"42_1"`: the counter
increments before the suffix is appended, so even the first occurrence of a
duplicated location receives a suffix. -/
theorem c2_two_dups_tokens (pre post : List (String × String)) (k1 k2 : String)
    (hwf : ∀ e ∈ pre ++ post, (splitLoc e.2).isSome = true)
    (hne : ∀ e ∈ pre ++ post, e.2 ≠ "file.gml:42")
    (hnd : ((pre ++ post).map (·.2)).Nodup) :
    ∃ t1 t2, chTraceOf (pre ++ (k1, "file.gml:42") :: (k2, "file.gml:42") :: post) =
      some (t1 ++ ("file.gml", "42_1", k1) :: ("file.gml", "42_2", k2) :: t2) := by
  set entries := pre ++ (k1, "file.gml:42") :: (k2, "file.gml:42") :: post with hent
  set dups := buildDupMap entries with hdups
  have hmid : ((k1, "file.gml:42") :: (k2, "file.gml:42") :: post) =
      [(k1, "file.gml:42"), (k2, "file.gml:42")] ++ post := rfl
  have hcL : countOcc "file.gml:42" entries = 2 := by
    rw [hent, hmid, countOcc_append, countOcc_append,
      countOcc_eq_zero pre _ (fun e he => hne e (List.mem_append_left _ he)),
      countOcc_eq_zero post _ (fun e he => hne e (List.mem_append_right _ he))]
    rfl
  have hL : dgetD dups "file.gml:42" 0 = 2 := by
    rw [hdups, buildDupMap_count]
    exact hcL
  have hpre1 : ∀ e ∈ pre, dgetD dups e.2 0 ≤ 1 := by
    intro e he
    rw [hdups, buildDupMap_count, hent, hmid]
    have hv : e.2 ≠ "file.gml:42" := hne e (List.mem_append_left _ he)
    have h1 : countOcc e.2 [(k1, "file.gml:42"), (k2, "file.gml:42")] = 0 := by
      apply countOcc_eq_zero
      intro x hx
      have hx2 : x.2 = "file.gml:42" := by
        rcases List.mem_cons.1 hx with h | h
        · rw [h]
        · simp at h
          rw [h]
      rw [hx2]
      exact fun hh => hv hh.symm
    have h2 : countOcc e.2 (pre ++ post) = 1 :=
      countOcc_eq_one_of_nodup (pre ++ post) e hnd (List.mem_append_left _ he)
    rw [countOcc_append] at h2
    rw [countOcc_append, countOcc_append, h1]
    omega
  have hwfp : ∀ e ∈ pre, (splitLoc e.2).isSome = true :=
    fun e he => hwf e (List.mem_append_left _ he)
  obtain ⟨sm1, δ1, hrun1⟩ := smLoop_nondup dups pre [] [] hwfp hpre1
  simp only [List.nil_append] at hrun1
  obtain ⟨st', hrun2, δ2, htr⟩ := smLoop_two_dups dups sm1 δ1 k1 k2 post hL
    (fun e he => hwf e (List.mem_append_right _ he))
  refine ⟨δ1, δ2, ?_⟩
  have hco : chTraceOf entries = (smLoop dups ([], 0, []) entries).map (·.2.2) := rfl
  rw [hco, hent, smLoop_append, hrun1]
  rw [Option.some_bind, hrun2]
  simp [htr]

/-- Witness for the amended C2: a duplicated pair surrounded by unrepeated
entries. -/
theorem c2_two_dups_tokens_witness :
    ∃ t1 t2, chTraceOf [("p", "g.gml:7"), ("k1", "file.gml:42"),
        ("k2", "file.gml:42"), ("q", "h.gml:9")] =
      some (t1 ++ ("file.gml", "42_1", "k1") :: ("file.gml", "42_2", "k2") :: t2) :=
  c2_two_dups_tokens [("p", "g.gml:7")] [("q", "h.gml:9")] "k1" "k2"
    (by decide) (by decide) (by decide)

/-- C3: the store trace the Splitter's loop actually performs is exactly the
one predicted by the spec's counter description: the counter resets to 0 on
every entry whose location occurs once in the chapter, increments on every
entry whose location occurs more than once, and such entries get the suffix
`_N` with `N` the counter's value after the increment. -/
theorem c3_counter_reset_semantics (entries : List (String × String)) (tr : List Store)
    (h : chTraceOf entries = some tr) :
    specTrace (fun v => countOcc v entries) 0 entries = some tr := by
  unfold chTraceOf at h
  cases hrun : smLoop (buildDupMap entries) ([], 0, []) entries with
  | none => rw [hrun] at h; simp at h
  | some st' =>
    rw [hrun] at h
    simp at h
    obtain ⟨δ, hδ, htr⟩ := smLoop_spec_trace (fun v => countOcc v entries)
      (buildDupMap entries) (fun v => buildDupMap_count entries v) entries [] 0 [] st' hrun
    rw [hδ]
    simp at htr
    rw [← h, htr]

/-- Witness for C3: a chapter with one duplicated and one unique location. -/
theorem c3_counter_reset_semantics_witness :
    chTraceOf [("a", "f:1"), ("b", "f:1"), ("c", "g:2")] =
      some [("f", "1_1", "a"), ("f", "1_2", "b"), ("g", "2", "c")] ∧
    specTrace (fun v => countOcc v [("a", "f:1"), ("b", "f:1"), ("c", "g:2")]) 0
      [("a", "f:1"), ("b", "f:1"), ("c", "g:2")] =
      some [("f", "1_1", "a"), ("f", "1_2", "b"), ("g", "2", "c")] :=
  ⟨rfl, c3_counter_reset_semantics _ _ rfl⟩

/-- C9: on source-map entries `k1 → "f:10"`, `k2 → "f:20"`, `k3 → "f:10"` (with
`"f:20"` unrepeated) the disambiguation counter resets at `k2` and both `k1`
and `k3` are assigned the same token `"10_1"`, so `k3` overwrites `k1` in the
per-file map; `k1` then reaches only the orphan object, never a per-file
object. -/
theorem c9_duplicate_token_collision :
    chTraceOf [("k1", "f:10"), ("k2", "f:20"), ("k3", "f:10")] =
      some [("f", "10_1", "k1"), ("f", "20", "k2"), ("f", "10_1", "k3")] ∧
    buildChSourcemap [("k1", "f:10"), ("k2", "f:20"), ("k3", "f:10")] =
      some [("f", [("10_1", "k3"), ("20", "k2")])] ∧
    (buildChSourcemap [("k1", "f:10"), ("k2", "f:20"), ("k3", "f:10")]).map
        (fun sm => splitLangObjs [("k1", "a"), ("k2", "b"), ("k3", "c")] ([], []) sm) =
      some ([("k3", "c"), ("k2", "b")], [("f", [("k3", "c"), ("k2", "b")])]) ∧
    buildOrphan [("k1", "a"), ("k2", "b"), ("k3", "c")] [("k3", "c"), ("k2", "b")] =
      [("k1", "a")] := by
  refine ⟨?_, ?_, ?_, ?_⟩ <;> rfl

/-- C2, counterexample: with exactly two keys mapped to `"file.gml:42"` and no
other repeated location, the loop assigns the tokens `"42_1"` and `"42_2"` —
not `"42"` and `"42_1"` as the claim states (the counter increments before
the suffix is appended, so the first duplicate already gets `_1`). -/
theorem c2_counterexample :
    chTraceOf [("k1", "file.gml:42"), ("k2", "file.gml:42")] =
      some [("file.gml", "42_1", "k1"), ("file.gml", "42_2", "k2")] ∧
    chTraceOf [("k1", "file.gml:42"), ("k2", "file.gml:42")] ≠
      some [("file.gml", "42", "k1"), ("file.gml", "42_1", "k2")] := by
  constructor
  · rfl
  · decide

/-- C10: when every base-language object is empty, the output document holds
only the `"date"` entry, `count_all` is `0`, and the progress computation
raises `ZeroDivisionError`; the run aborts with nothing written. -/
theorem c10_empty_base_divzero
    (files : List (List (String × String) × Option (List (String × String))))
    (date : String) (h : ∀ f ∈ files, f.1 = []) :
    compileModel files date = Except.error "ZeroDivisionError" ∧
    ∀ fs path, compileRun fs path files date = fs := by
  have hc := compileCore_all_empty files ([("date", date)], 0) h
  constructor
  · simp [compileModel, hc]
  · intro fs path
    simp [compileRun, compileModel, hc]

/-- Witness for C10 at the concrete input of one empty base object file. -/
theorem c10_empty_base_divzero_witness :
    (∀ f ∈ [(([] : List (String × String)),
        (none : Option (List (String × String))))], f.1 = []) ∧
    compileModel [([], none)] "0" = Except.error "ZeroDivisionError" :=
  ⟨by simp, (c10_empty_base_divzero [([], none)] "0" (by simp)).1⟩

/-- C8: a missing target-language file is handled exactly like a present but
empty one — the whole compile run computes the same result — and merging a
base object against the empty target keeps every base value and counts
nothing as translated. -/
theorem c8_missing_target_as_empty
    (bases : List (List (String × String))) (date : String) :
    compileModel (bases.map (fun b => (b, none))) date =
      compileModel (bases.map (fun b => (b, some []))) date ∧
    ∀ b : List (String × String), mergeFile b (loadTgt none) = (b, 0) := by
  constructor
  · simp only [compileModel, compileCore_target_none_eq_empty bases ([("date", date)], 0)]
  · intro b
    exact mergeFile_empty_tgt b

/-! ### C4: the Compiler's merge and progress -/

theorem mergeLoop_fst_dget? (tgt : List (String × String)) :
    ∀ (l cur : List (String × String)) (c : Nat) (k : String),
      dget? (mergeLoop tgt (cur, c) l).1 k =
        if k ∈ l.map (·.1) ∧ (dget? tgt k).isSome = true
        then dget? tgt k else dget? cur k := by
  intro l
  induction l with
  | nil =>
    intro cur c k
    simp [mergeLoop]
  | cons p rest ih =>
    intro cur c k
    obtain ⟨k0, v0⟩ := p
    cases ht : dget? tgt k0 with
    | none =>
      simp only [mergeLoop, ht]
      rw [ih]
      by_cases hk : k = k0
      · subst hk
        simp [ht]
      · have hmem : k ∈ k0 :: rest.map (·.1) ↔ k ∈ rest.map (·.1) := by simp [hk]
        simp only [List.map_cons, hmem]
    | some tv =>
      simp only [mergeLoop, ht]
      rw [ih]
      by_cases hk : k = k0
      · subst hk
        by_cases hm : k ∈ rest.map (·.1) <;>
          simp [hm, ht, dget?_dinsert_self]
      · rw [dget?_dinsert_ne cur k0 k tv hk]
        have hmem : k ∈ k0 :: rest.map (·.1) ↔ k ∈ rest.map (·.1) := by simp [hk]
        simp only [List.map_cons, hmem]

theorem mergeLoop_snd_count (tgt : List (String × String)) :
    ∀ (l cur : List (String × String)) (c : Nat),
      (mergeLoop tgt (cur, c) l).2 =
        c + (l.filter (fun p => dmem tgt p.1)).length := by
  intro l
  induction l with
  | nil =>
    intro cur c
    simp [mergeLoop]
  | cons p rest ih =>
    intro cur c
    obtain ⟨k0, v0⟩ := p
    cases ht : dget? tgt k0 with
    | none =>
      simp only [mergeLoop, ht]
      rw [ih]
      have hd : dmem tgt k0 = false := by simp [dmem, ht]
      simp [hd]
    | some tv =>
      simp only [mergeLoop, ht]
      rw [ih]
      have hd : dmem tgt k0 = true := by simp [dmem, ht]
      simp [hd]
      omega

/-- Characterisation of the Compiler's merge and of `compileModel`'s
(idealised, exact-floor) progress arm: every base key also present in the
target object takes the target value and every other base key keeps its base
value (keys not in the base object never appear); the translated count is
the number of base keys present in the target object; and the model's
progress `p` for a successful run satisfies `p·ca ≤ 100·t < (p+1)·ca`.
The program's actual line 167 uses binary64 arithmetic instead — see
`c4_progress_float_truncation`. -/
theorem c4_merge_values_count_progress :
    (∀ base tgt : List (String × String), ∀ k,
      dget? (mergeFile base tgt).1 k =
        if (dget? base k).isSome = true ∧ (dget? tgt k).isSome = true
        then dget? tgt k else dget? base k) ∧
    (∀ base tgt : List (String × String),
      (mergeFile base tgt).2 = (base.filter (fun p => dmem tgt p.1)).length) ∧
    (∀ files date d t p, compileModel files date = Except.ok (d, t, p) →
      p * (d.length - 1) ≤ t * 100 ∧
        t * 100 < p * (d.length - 1) + (d.length - 1)) := by
  refine ⟨?_, ?_, ?_⟩
  · intro base tgt k
    unfold mergeFile
    rw [mergeLoop_fst_dget?]
    have hiff : k ∈ base.map (·.1) ↔ (dget? base k).isSome = true := by
      rw [dget?_isSome_iff]
      exact Iff.rfl
    by_cases hb : (dget? base k).isSome = true
    · simp [hiff, hb]
    · simp [hiff, hb]
  · intro base tgt
    unfold mergeFile
    rw [mergeLoop_snd_count]
    simp
  · intro files date d t p hok
    unfold compileModel at hok
    by_cases hca : (compileCore ([("date", date)], 0) files).1.length - 1 = 0
    · rw [if_pos hca] at hok
      exact absurd hok (by simp)
    · rw [if_neg hca] at hok
      simp only [Except.ok.injEq, Prod.mk.injEq] at hok
      obtain ⟨hd, ht, hp⟩ := hok
      subst hd
      subst ht
      subst hp
      set r := compileCore ([("date", date)], 0) files with hr
      set ca := r.1.length - 1 with hcadef
      have hpos : 0 < ca := Nat.pos_of_ne_zero hca
      constructor
      · exact Nat.div_mul_le_self (r.2 * 100) ca
      · have hdm := Nat.div_add_mod (r.2 * 100) ca
        have hmod := Nat.mod_lt (r.2 * 100) hpos
        have hcomm : (r.2 * 100 / ca) * ca = ca * (r.2 * 100 / ca) := Nat.mul_comm _ _
        omega

/-- The spec's example under the merge characterisation: target
`{"A": "translated"}` over base `{"A": "original", "B": "original2"}`
compiles to `{"A": "translated", "B": "original2"}`, 1 of 2 translated,
progress 50 (exact here, and binary64 agrees at 1 of 2). -/
theorem c4_merge_values_count_progress_witness :
    dget? (mergeFile [("A", "original"), ("B", "original2")] [("A", "translated")]).1 "A" =
      some "translated" ∧
    (mergeFile [("A", "original"), ("B", "original2")] [("A", "translated")]).2 = 1 ∧
    compileModel [([("A", "original"), ("B", "original2")], some [("A", "translated")])]
      "d0" = Except.ok ([("date", "d0"), ("A", "translated"), ("B", "original2")], 1, 50) ∧
    50 * 2 ≤ 1 * 100 ∧ 1 * 100 < 50 * 2 + 2 :=
  ⟨(c4_merge_values_count_progress.1 [("A", "original"), ("B", "original2")]
      [("A", "translated")] "A").trans (by decide),
   (c4_merge_values_count_progress.2.1 [("A", "original"), ("B", "original2")]
      [("A", "translated")]).trans (by decide),
   rfl,
   c4_merge_values_count_progress.2.2
     [([("A", "original"), ("B", "original2")], some [("A", "translated")])] "d0"
     [("date", "d0"), ("A", "translated"), ("B", "original2")] 1 50 rfl⟩

/-- C4: the claim's merge semantics and translated count hold (see
`c4_merge_values_count_progress`), but its progress formula does not hold of
the program: line 167 evaluates `int((count_translated / count_all) * 100)`
in binary64 floating point, and at 29 translated of 100 total keys this
reports 28 while the claimed `floor(29 / 100 × 100)` is 29 — the claim
states the intended behaviour and the code's float detour is the slip.  On
the claim's own example (1 of 2) both agree on 50. -/
theorem c4_progress_float_truncation :
    pyProgress 29 100 = 28 ∧ (29 * 100) / 100 = 29 ∧
    pyProgress 1 2 = 50 ∧ (1 * 100) / 2 = 50 := by
  refine ⟨?_, ?_, ?_, ?_⟩ <;> rfl

/-! ### C5: the natural sort key -/

theorem isDigitC_ne_underscore (c : Char) (h : isDigitC c = true) : ¬ c = '_' := by
  intro he
  subst he
  exact absurd h (by decide)

theorem splitSep_all_digits (cs : List Char) (hne : cs ≠ [])
    (h : cs.all isDigitC = true) : splitSep '_' cs = [cs] := by
  induction cs with
  | nil => exact absurd rfl hne
  | cons c rest ih =>
    rw [List.all_cons, Bool.and_eq_true] at h
    by_cases hr : rest = []
    · subst hr
      simp [splitSep, isDigitC_ne_underscore c h.1]
    · have hs := ih hr h.2
      simp [splitSep, hs, isDigitC_ne_underscore c h.1]

theorem isDigitC_toNat_bounds (c : Char) (h : isDigitC c = true) :
    48 ≤ c.toNat ∧ c.toNat ≤ 57 := by
  rw [isDigitC, Bool.and_eq_true, decide_eq_true_eq, decide_eq_true_eq] at h
  exact h

theorem valL_lt (cs : List Char) (h : cs.all isDigitC = true) :
    valL cs < 10 ^ cs.length := by
  induction cs with
  | nil => simp [valL]
  | cons c rest ih =>
    rw [List.all_cons, Bool.and_eq_true] at h
    have hc := (isDigitC_toNat_bounds c h.1).2
    have hr := ih h.2
    have hbound : (c.toNat - 48) * 10 ^ rest.length ≤ 9 * 10 ^ rest.length :=
      Nat.mul_le_mul_right _ (by omega)
    have hsum : 9 * 10 ^ rest.length + 10 ^ rest.length = 10 ^ rest.length * 10 := by ring
    show (c.toNat - 48) * 10 ^ rest.length + valL rest < 10 ^ (rest.length + 1)
    rw [pow_succ]
    omega

theorem valL_replicate_zero (n : Nat) (cs : List Char) :
    valL (List.replicate n '0' ++ cs) = valL cs := by
  induction n with
  | zero => simp
  | succ m ih =>
    have h0 : ('0' : Char).toNat = 48 := rfl
    show valL ('0' :: (List.replicate m '0' ++ cs)) = valL cs
    rw [valL, ih, h0]
    simp

theorem valL_rjustL (cs : List Char) : valL (rjustL cs) = valL cs := by
  rw [rjustL]
  exact valL_replicate_zero _ _

theorem rjustL_length (cs : List Char) (h : cs.length ≤ 16) :
    (rjustL cs).length = 16 := by
  simp [rjustL]
  omega

theorem rjustL_all (cs : List Char) (h : cs.all isDigitC = true) :
    (rjustL cs).all isDigitC = true := by
  rw [rjustL, List.all_append, Bool.and_eq_true]
  refine ⟨?_, h⟩
  rw [List.all_eq_true]
  intro c hc
  rw [List.eq_of_mem_replicate hc]
  decide

theorem cmpNat_add_left (x u v : Nat) : cmpNat (x + u) (x + v) = cmpNat u v := by
  unfold cmpNat
  by_cases h1 : u < v
  · rw [if_pos (by omega), if_pos h1]
  · by_cases h2 : v < u
    · rw [if_neg (by omega), if_pos (by omega), if_neg h1, if_pos h2]
    · rw [if_neg (by omega), if_neg (by omega), if_neg h1, if_neg h2]

theorem cmpNat_lt_iff (u v : Nat) : (cmpNat u v == Ordering.lt) = true ↔ u < v := by
  unfold cmpNat
  by_cases h1 : u < v
  · simp [h1]
    decide
  · by_cases h2 : v < u <;> simp [h1, h2] <;> decide

/-- Lexicographic code-point comparison of equal-length digit strings agrees
with three-way comparison of their numeric values. -/
theorem cmpChars_digits (as : List Char) :
    ∀ bs : List Char, as.all isDigitC = true → bs.all isDigitC = true →
      as.length = bs.length → cmpChars as bs = cmpNat (valL as) (valL bs) := by
  induction as with
  | nil =>
    intro bs _ _ hlen
    cases bs with
    | nil => rfl
    | cons b bs' => simp at hlen
  | cons a as' ih =>
    intro bs ha hb hlen
    cases bs with
    | nil => simp at hlen
    | cons b bs' =>
      rw [List.all_cons, Bool.and_eq_true] at ha hb
      simp at hlen
      have hva : valL as' < 10 ^ as'.length := valL_lt as' ha.2
      have hvb : valL bs' < 10 ^ bs'.length := valL_lt bs' hb.2
      have hba := isDigitC_toNat_bounds a ha.1
      have hbb := isDigitC_toNat_bounds b hb.1
      have hva' : valL as' < 10 ^ bs'.length := hlen ▸ hva
      rcases Nat.lt_trichotomy a.toNat b.toNat with hab | hab | hab
      · have hcl : cmpChars (a :: as') (b :: bs') = .lt := by
          simp [cmpChars, cmpNat, hab]
        rw [hcl]
        have hv : valL (a :: as') < valL (b :: bs') := by
          show (a.toNat - 48) * 10 ^ as'.length + valL as' <
            (b.toNat - 48) * 10 ^ bs'.length + valL bs'
          rw [hlen]
          have h2 : (a.toNat - 48 + 1) * 10 ^ bs'.length ≤
              (b.toNat - 48) * 10 ^ bs'.length :=
            Nat.mul_le_mul_right _ (by omega)
          have h3 : (a.toNat - 48) * 10 ^ bs'.length + 10 ^ bs'.length =
              (a.toNat - 48 + 1) * 10 ^ bs'.length := by ring
          omega
        rw [cmpNat, if_pos hv]
      · have hcl : cmpChars (a :: as') (b :: bs') = cmpChars as' bs' := by
          simp [cmpChars, cmpNat, hab]
        rw [hcl, ih bs' ha.2 hb.2 hlen]
        show cmpNat (valL as') (valL bs') =
          cmpNat ((a.toNat - 48) * 10 ^ as'.length + valL as')
            ((b.toNat - 48) * 10 ^ bs'.length + valL bs')
        rw [hlen, hab, cmpNat_add_left]
      · have hcl : cmpChars (a :: as') (b :: bs') = .gt := by
          simp [cmpChars, cmpNat, hab, Nat.lt_asymm hab]
        rw [hcl]
        have hv : valL (b :: bs') < valL (a :: as') := by
          show (b.toNat - 48) * 10 ^ bs'.length + valL bs' <
            (a.toNat - 48) * 10 ^ as'.length + valL as'
          rw [hlen]
          have h2 : (b.toNat - 48 + 1) * 10 ^ bs'.length ≤
              (a.toNat - 48) * 10 ^ bs'.length :=
            Nat.mul_le_mul_right _ (by omega)
          have h3 : (b.toNat - 48) * 10 ^ bs'.length + 10 ^ bs'.length =
              (b.toNat - 48 + 1) * 10 ^ bs'.length := by ring
          omega
        rw [cmpNat, if_neg (Nat.lt_asymm hv), if_pos hv]

/-- C5: for position tokens that are purely numeric with at most 16 digits,
the natural sort key left-pads to width 16 and Python's comparison of the
resulting keys coincides with numeric comparison of the tokens; in
particular `key("9") < key("10")`. -/
theorem c5_natural_sort_numeric (s t x y : String)
    (hs : isDigitL s.data = true) (ht : isDigitL t.data = true)
    (h16s : s.data.length ≤ 16) (h16t : t.data.length ≤ 16) :
    (keyLt (smartsort (s, x)) (smartsort (t, y)) = true ↔
      valL s.data < valL t.data) := by
  rw [isDigitL, Bool.and_eq_true] at hs ht
  have hnes : s.data ≠ [] := by
    intro he
    rw [he] at hs
    exact absurd hs.1 (by decide)
  have hnet : t.data ≠ [] := by
    intro he
    rw [he] at ht
    exact absurd ht.1 (by decide)
  have hds : isDigitL s.data = true := by
    rw [isDigitL, Bool.and_eq_true]; exact hs
  have hdt : isDigitL t.data = true := by
    rw [isDigitL, Bool.and_eq_true]; exact ht
  have hsplit_s : smartsortL s.data = [rjustL s.data] := by
    unfold smartsortL
    rw [splitSep_all_digits s.data hnes hs.2]
    simp [hds]
  have hsplit_t : smartsortL t.data = [rjustL t.data] := by
    unfold smartsortL
    rw [splitSep_all_digits t.data hnet ht.2]
    simp [hdt]
  have hkey : cmpKey [rjustL s.data] [rjustL t.data] =
      cmpChars (rjustL s.data) (rjustL t.data) := by
    unfold cmpKey
    cases hc : cmpChars (rjustL s.data) (rjustL t.data) <;> simp [hc, cmpKey]
  have hcc : cmpChars (rjustL s.data) (rjustL t.data) =
      cmpNat (valL s.data) (valL t.data) := by
    rw [cmpChars_digits (rjustL s.data) (rjustL t.data)
      (rjustL_all s.data hs.2) (rjustL_all t.data ht.2)
      (by rw [rjustL_length s.data h16s, rjustL_length t.data h16t]),
      valL_rjustL, valL_rjustL]
  show (cmpKey (smartsortL s.data) (smartsortL t.data) == Ordering.lt) = true ↔ _
  rw [hsplit_s, hsplit_t, hkey, hcc]
  exact cmpNat_lt_iff _ _

/-- Witness for C5: `key("9") < key("10")`. -/
theorem c5_natural_sort_numeric_witness :
    isDigitL ("9" : String).data = true ∧ isDigitL ("10" : String).data = true ∧
    ("9" : String).data.length ≤ 16 ∧ ("10" : String).data.length ≤ 16 ∧
    keyLt (smartsort ("9", "")) (smartsort ("10", "")) = true :=
  ⟨by decide, by decide, by decide, by decide,
   (c5_natural_sort_numeric "9" "10" "" "" (by decide) (by decide)
     (by decide) (by decide)).2 (by decide)⟩

/-! ### C6: the Initializer -/

theorem dget?_filter_ne (fs : List (String × α)) (m n : String) :
    dget? (fs.filter (fun p => decide (p.1 ≠ m))) n =
      if n = m then none else dget? fs n := by
  induction fs with
  | nil =>
    simp only [List.filter_nil, dget?_nil]
    exact (ite_self none).symm
  | cons p rest ih =>
    by_cases hp : p.1 = m
    · rw [List.filter_cons, if_neg (by simp [hp]), ih]
      by_cases hn : n = m
      · rw [if_pos hn, if_pos hn]
      · rw [if_neg hn, if_neg hn]
        have hpn : p.1 ≠ n := by rw [hp]; exact fun h => hn h.symm
        simp [hpn]
    · rw [List.filter_cons, if_pos (by simp [hp])]
      by_cases hpn : p.1 = n
      · have hn : n ≠ m := by rw [← hpn]; exact hp
        simp [hpn, hn]
      · simp only [dget?_cons, if_neg hpn, ih]

theorem deleteFold_dget? (D : List String) :
    ∀ (fs : List (String × α)) (n : String),
      dget? (D.foldl (fun fs m => fs.filter (fun p => decide (p.1 ≠ m))) fs) n =
        if n ∈ D then none else dget? fs n := by
  induction D with
  | nil =>
    intro fs n
    simp
  | cons m rest ih =>
    intro fs n
    rw [List.foldl_cons, ih]
    by_cases hn : n ∈ rest
    · simp [hn]
    · rw [if_neg hn, dget?_filter_ne]
      by_cases hm : n = m
      · subst hm
        simp
      · simp [hm, hn]

theorem createFold_dget? (L : List String) :
    ∀ (fs : List (String × List (String × String))) (n : String),
      dget? (L.foldl (fun fs name => if dmem fs name then fs
          else fs ++ [(name, [])]) fs) n =
        (dget? fs n).or (if n ∈ L then some [] else none) := by
  induction L with
  | nil =>
    intro fs n
    cases h : dget? fs n <;> simp [h, Option.or]
  | cons m rest ih =>
    intro fs n
    rw [List.foldl_cons]
    by_cases hm : dmem fs m = true
    · rw [if_pos hm, ih]
      cases h : dget? fs n with
      | some c => simp [Option.or]
      | none =>
        have hnm : n ≠ m := by
          intro he
          subst he
          rw [dmem, h] at hm
          simp at hm
        simp [Option.or, hnm]
    · rw [if_neg hm, ih, dget?_append]
      cases h : dget? fs n with
      | some c => simp [Option.or]
      | none =>
        by_cases hnm : n = m
        · subst hnm
          simp [Option.or]
        · have hmn : ¬ m = n := fun hh => hnm hh.symm
          simp [Option.or, hnm, hmn]

/-- C6: after the Initializer runs against base filenames `lsBase` and a
target directory `tgt`, a file named `n` exists under the target exactly when
`n` is a base filename; its content is the old target content when the file
already existed and the empty object when it was created; files not named by
the base are deleted.  The second conjunct is the spec's concrete example:
base `{x.json, y.json}` against target `{y.json, z.json}`. -/
theorem c6_init_exact_base_files :
    (∀ (lsBase : List String) (tgt : List (String × List (String × String)))
      (n : String),
      dget? (initModel lsBase tgt) n =
        if n ∈ lsBase then some ((dget? tgt n).getD []) else none) ∧
    (∀ cy cz : List (String × String),
      initModel ["x.json", "y.json"] [("y.json", cy), ("z.json", cz)] =
        [("y.json", cy), ("x.json", [])]) := by
  constructor
  · intro lsBase tgt n
    simp only [initModel]
    rw [deleteFold_dget?, createFold_dget?]
    by_cases hb : n ∈ lsBase
    · have hnd : n ∉ (tgt.map (·.1)).filter (fun x => !lsBase.contains x) := by
        intro hmem
        have := (List.mem_filter.1 hmem).2
        simp at this
        exact this hb
      rw [if_neg hnd, if_pos hb]
      cases h : dget? tgt n <;> simp [h, Option.or, hb]
    · by_cases hnew : n ∈ tgt.map (·.1)
      · have hd : n ∈ (tgt.map (·.1)).filter (fun x => !lsBase.contains x) :=
          List.mem_filter.2 ⟨hnew, by simpa using hb⟩
        rw [if_pos hd, if_neg hb]
      · have hnd : n ∉ (tgt.map (·.1)).filter (fun x => !lsBase.contains x) := by
          intro hmem
          exact hnew (List.mem_filter.1 hmem).1
        have hnone : dget? tgt n = none := (dget?_eq_none_iff tgt n).2 hnew
        rw [if_neg hnd, hnone, if_neg hb, if_neg hb]
        simp [Option.or]
  · intro cy cz
    rfl

/-! ### C7: idempotence of the Splitter's file effects -/

theorem lastWrite_cons (a : Action) (acts : List Action) (q : String) :
    lastWrite (a :: acts) q =
      match lastWrite acts q with
      | some w => some w
      | none => if a.1 = q then some a.2 else none := by
  unfold lastWrite
  rw [List.reverse_cons, List.find?_append]
  cases h : acts.reverse.find? (fun x => decide (x.1 = q)) with
  | some w => simp [Option.or]
  | none =>
    by_cases ha : a.1 = q <;> simp [Option.or, ha, List.find?]

theorem applyActs_lastWrite (acts : List Action) :
    ∀ (fs : FS) (q : String), applyActs fs acts q = (lastWrite acts q).getD (fs q) := by
  induction acts with
  | nil =>
    intro fs q
    simp [applyActs, lastWrite]
  | cons a rest ih =>
    intro fs q
    show applyActs (applyAct fs a) rest q = _
    rw [ih, lastWrite_cons]
    cases h : lastWrite rest q with
    | some w => simp
    | none =>
      unfold applyAct
      by_cases hq : q = a.1
      · simp [hq]
      · have hq' : ¬ a.1 = q := fun hh => hq hh.symm
        simp [hq, hq']

theorem applyActs_idem (acts : List Action) (fs : FS) :
    applyActs (applyActs fs acts) acts = applyActs fs acts := by
  funext q
  rw [applyActs_lastWrite, applyActs_lastWrite]
  cases h : lastWrite acts q <;> simp

/-- C7: the file actions of a `split_dump` run are a pure function of the
loaded `lang.json` and `sourcemap.json`, so a second run performs the same
action list; replaying that list leaves every path — per-file objects,
orphan objects and chapter sourcemaps — exactly as the first run left it
(byte-identical contents, deleted files stay deleted). -/
theorem c7_split_idempotent (rawSM : String → List (String × String))
    (rawLang : String → String → List (String × String))
    (acts : List Action) (fs : FS)
    (_h : splitActions rawSM rawLang = some acts) :
    applyActs (applyActs fs acts) acts = applyActs fs acts :=
  applyActs_idem acts fs

/-- Witness for C7: a concrete successful run on all four chapters. -/
theorem c7_split_idempotent_witness :
    applyActs (applyActs fsW actsW) actsW = applyActs fsW actsW :=
  c7_split_idempotent rsW rlW actsW fsW rfl

/-! ### C1: the emitted keys partition the raw string map -/

theorem dmem_dinsert_iff (d : List (String × α)) (k0 k : String) (v : α) :
    dmem (dinsert d k0 v) k = true ↔ dmem d k = true ∨ k = k0 := by
  show (dget? (dinsert d k0 v) k).isSome = true ↔ (dget? d k).isSome = true ∨ k = k0
  rw [dget?_isSome_iff, dget?_isSome_iff]
  exact mem_dkeys_dinsert d k0 k v

theorem buildObj_mem (rawL : List (String × String)) :
    ∀ (fe ls ob : List (String × String)) (k : String),
      (dmem (buildObj rawL (ls, ob) fe).1 k = true ↔
        dmem ls k = true ∨ (k ∈ fe.map (·.2) ∧ dmem rawL k = true)) ∧
      (dmem (buildObj rawL (ls, ob) fe).2 k = true ↔
        dmem ob k = true ∨ (k ∈ fe.map (·.2) ∧ dmem rawL k = true)) := by
  intro fe
  induction fe with
  | nil =>
    intro ls ob k
    simp [buildObj]
  | cons e rest ih =>
    intro ls ob k
    obtain ⟨tok, k0⟩ := e
    cases hr : dget? rawL k0 with
    | none =>
      have hraw : dmem rawL k0 = false := by simp [dmem, hr]
      have hstep : buildObj rawL (ls, ob) ((tok, k0) :: rest) =
          buildObj rawL (ls, ob) rest := by
        simp [buildObj, hr]
      rw [hstep]
      constructor
      · rw [(ih ls ob k).1]
        by_cases hk : k = k0
        · subst hk
          simp [hraw]
        · simp [hk]
      · rw [(ih ls ob k).2]
        by_cases hk : k = k0
        · subst hk
          simp [hraw]
        · simp [hk]
    | some sv =>
      have hraw : dmem rawL k0 = true := by simp [dmem, hr]
      have hstep : buildObj rawL (ls, ob) ((tok, k0) :: rest) =
          buildObj rawL (dinsert ls k0 sv, dinsert ob k0 sv) rest := by
        simp [buildObj, hr]
      rw [hstep]
      constructor
      · rw [(ih _ _ k).1, dmem_dinsert_iff]
        by_cases hk : k = k0
        · subst hk
          simp [hraw]
        · simp [hk]
      · rw [(ih _ _ k).2, dmem_dinsert_iff]
        by_cases hk : k = k0
        · subst hk
          simp [hraw]
        · simp [hk]

theorem splitLangObjs_objs_mono (rawL : List (String × String)) :
    ∀ (sms : List (String × List (String × String)))
      (ls : List (String × String)) (objs : List (String × List (String × String)))
      (p : String × List (String × String)),
      p ∈ objs → p ∈ (splitLangObjs rawL (ls, objs) sms).2 := by
  intro sms
  induction sms with
  | nil =>
    intro ls objs p hp
    exact hp
  | cons s rest ih =>
    intro ls objs p hp
    obtain ⟨f0, fe0⟩ := s
    exact ih _ _ p (List.mem_append_left _ hp)

theorem splitLangObjs_objs_src (rawL : List (String × String)) :
    ∀ (sms : List (String × List (String × String)))
      (ls : List (String × String)) (objs : List (String × List (String × String)))
      (f : String) (obj : List (String × String)),
      (f, obj) ∈ (splitLangObjs rawL (ls, objs) sms).2 →
      (f, obj) ∈ objs ∨ ∃ fe, (f, fe) ∈ sms ∧
        ∀ k, dmem obj k = true ↔ k ∈ fe.map (·.2) ∧ dmem rawL k = true := by
  intro sms
  induction sms with
  | nil =>
    intro ls objs f obj h
    exact Or.inl h
  | cons s rest ih =>
    intro ls objs f obj h
    obtain ⟨f0, fe0⟩ := s
    rcases ih _ _ f obj h with hin | ⟨fe, hfe, hiff⟩
    · rcases List.mem_append.1 hin with hin | hin
      · exact Or.inl hin
      · simp at hin
        obtain ⟨hf, hobj⟩ := hin
        subst hf
        refine Or.inr ⟨fe0, List.mem_cons_self _ _, ?_⟩
        intro k
        rw [hobj, (buildObj_mem rawL fe0 ls [] k).2]
        simp [dmem]
    · exact Or.inr ⟨fe, List.mem_cons_of_mem _ hfe, hiff⟩

theorem splitLangObjs_ls_to_obj (rawL : List (String × String)) :
    ∀ (sms : List (String × List (String × String)))
      (ls : List (String × String)) (objs : List (String × List (String × String)))
      (k : String),
      dmem (splitLangObjs rawL (ls, objs) sms).1 k = true →
      dmem ls k = true ∨ ∃ f obj,
        (f, obj) ∈ (splitLangObjs rawL (ls, objs) sms).2 ∧ dmem obj k = true := by
  intro sms
  induction sms with
  | nil =>
    intro ls objs k h
    exact Or.inl h
  | cons s rest ih =>
    intro ls objs k h
    obtain ⟨f0, fe0⟩ := s
    rcases ih _ _ k h with hls | ⟨f, obj, hobj, hk⟩
    · rcases ((buildObj_mem rawL fe0 ls [] k).1).1 hls with hls0 | hem
      · exact Or.inl hls0
      · have hob : dmem (buildObj rawL (ls, []) fe0).2 k = true := by
          rw [(buildObj_mem rawL fe0 ls [] k).2]
          exact Or.inr hem
        refine Or.inr ⟨f0, (buildObj rawL (ls, []) fe0).2, ?_, hob⟩
        exact splitLangObjs_objs_mono rawL rest _ _ _
          (List.mem_append_right _ (by simp))
    · exact Or.inr ⟨f, obj, hobj, hk⟩

theorem splitLangObjs_keys (rawL : List (String × String)) :
    ∀ (sms : List (String × List (String × String)))
      (ls : List (String × String)) (objs : List (String × List (String × String))),
      ((splitLangObjs rawL (ls, objs) sms).2).map (·.1) =
        objs.map (·.1) ++ sms.map (·.1) := by
  intro sms
  induction sms with
  | nil =>
    intro ls objs
    simp [splitLangObjs]
  | cons s rest ih =>
    intro ls objs
    obtain ⟨f0, fe0⟩ := s
    show ((splitLangObjs rawL (_, objs ++ [(f0, _)]) rest).2).map (·.1) = _
    rw [ih]
    simp

theorem buildOrphan_mem (rawL ls : List (String × String)) (k : String) :
    dmem (buildOrphan rawL ls) k = true ↔
      k ∈ rawL.map (·.1) ∧ dmem ls k = false ∧ k ≠ "date" := by
  suffices h : ∀ (l acc : List (String × String)),
      dmem (l.foldl (fun o p =>
          if dmem ls p.1 then o
          else if p.1 = "date" then o
          else dinsert o p.1 p.2) acc) k = true ↔
        dmem acc k = true ∨ (k ∈ l.map (·.1) ∧ dmem ls k = false ∧ k ≠ "date") by
    have := h rawL []
    rw [buildOrphan]
    rw [this]
    simp [dmem]
  intro l
  induction l with
  | nil =>
    intro acc
    simp
  | cons p rest ih =>
    intro acc
    rw [List.foldl_cons, ih]
    by_cases hls : dmem ls p.1 = true
    · rw [if_pos hls]
      by_cases hk : k = p.1
      · subst hk
        simp [hls]
      · simp [hk]
    · rw [if_neg hls]
      by_cases hdate : p.1 = "date"
      · rw [if_pos hdate]
        by_cases hk : k = p.1
        · subst hk
          simp [hdate]
        · simp [hk]
      · rw [if_neg hdate]
        rw [dmem_dinsert_iff]
        by_cases hk : k = p.1
        · subst hk
          simp [hls, hdate]
        · simp [hk]

theorem dinsert2_value_src (sm : List (String × List (String × String)))
    (f0 T k0 : String) (f : String) (o : List (String × String)) (tok k : String)
    (hget : dget? (dinsert2 sm f0 T k0) f = some o) (hmem : (tok, k) ∈ o) :
    (∃ o0 tok0, dget? sm f = some o0 ∧ (tok0, k) ∈ o0) ∨ (f = f0 ∧ k = k0) := by
  unfold dinsert2 at hget
  by_cases hf : f = f0
  · subst hf
    rw [dget?_dinsert_self] at hget
    have ho : o = dinsert (dgetD sm f []) T k0 := by
      injection hget.symm
    rw [ho] at hmem
    rcases mem_dinsert _ _ _ _ hmem with hin | heq
    · cases hsm : dget? sm f with
      | none =>
        rw [dgetD, hsm] at hin
        simp at hin
      | some o0 =>
        rw [dgetD, hsm] at hin
        exact Or.inl ⟨o0, tok, rfl, hin⟩
    · injection heq with h1 h2
      exact Or.inr ⟨rfl, h2⟩
  · rw [dget?_dinsert_ne _ _ _ _ hf] at hget
    exact Or.inl ⟨o, tok, hget, hmem⟩

theorem smLoop_value_src (dups : List (String × Nat)) :
    ∀ (es : List (String × String)) (sm : List (String × List (String × String)))
      (dc : Nat) (tr : List Store) (st' : SMState),
      smLoop dups (sm, dc, tr) es = some st' →
      ∀ (f : String) (o : List (String × String)) (tok k : String),
        dget? st'.1 f = some o → (tok, k) ∈ o →
        (∃ o0 tok0, dget? sm f = some o0 ∧ (tok0, k) ∈ o0) ∨
        ∃ v l, (k, v) ∈ es ∧ splitLoc v = some (f, l) := by
  intro es
  induction es with
  | nil =>
    intro sm dc tr st' h f o tok k hget hmem
    simp [smLoop] at h
    rw [← h] at hget
    exact Or.inl ⟨o, tok, hget, hmem⟩
  | cons e rest ih =>
    intro sm dc tr st' h f o tok k hget hmem
    obtain ⟨k0, v0⟩ := e
    simp only [smLoop] at h
    cases hsl : splitLoc v0 with
    | none =>
      rw [hsl] at h
      simp at h
    | some fl =>
      obtain ⟨f0, l0⟩ := fl
      rw [hsl] at h
      simp only at h
      by_cases hgt : dgetD dups v0 0 > 1
      · rw [if_pos hgt] at h
        rcases ih _ _ _ _ h f o tok k hget hmem with hleft | hright
        · obtain ⟨o0, tok0, hget0, hmem0⟩ := hleft
          rcases dinsert2_value_src sm f0 _ k0 f o0 tok0 k hget0 hmem0 with h1 | h2
          · exact Or.inl h1
          · refine Or.inr ⟨v0, l0, ?_, ?_⟩
            · rw [h2.2]
              exact List.mem_cons_self _ _
            · rw [h2.1]
              exact hsl
        · obtain ⟨v, l, hv, hspl⟩ := hright
          exact Or.inr ⟨v, l, List.mem_cons_of_mem _ hv, hspl⟩
      · rw [if_neg hgt] at h
        rcases ih _ _ _ _ h f o tok k hget hmem with hleft | hright
        · obtain ⟨o0, tok0, hget0, hmem0⟩ := hleft
          rcases dinsert2_value_src sm f0 _ k0 f o0 tok0 k hget0 hmem0 with h1 | h2
          · exact Or.inl h1
          · refine Or.inr ⟨v0, l0, ?_, ?_⟩
            · rw [h2.2]
              exact List.mem_cons_self _ _
            · rw [h2.1]
              exact hsl
        · obtain ⟨v, l, hv, hspl⟩ := hright
          exact Or.inr ⟨v, l, List.mem_cons_of_mem _ hv, hspl⟩

theorem smLoop_outer_nodup (dups : List (String × Nat)) :
    ∀ (es : List (String × String)) (sm : List (String × List (String × String)))
      (dc : Nat) (tr : List Store) (st' : SMState),
      (dkeys sm).Nodup → smLoop dups (sm, dc, tr) es = some st' →
      (dkeys st'.1).Nodup := by
  intro es
  induction es with
  | nil =>
    intro sm dc tr st' hnd h
    simp [smLoop] at h
    rw [← h]
    exact hnd
  | cons e rest ih =>
    intro sm dc tr st' hnd h
    obtain ⟨k0, v0⟩ := e
    simp only [smLoop] at h
    cases hsl : splitLoc v0 with
    | none =>
      rw [hsl] at h
      simp at h
    | some fl =>
      obtain ⟨f0, l0⟩ := fl
      rw [hsl] at h
      simp only at h
      by_cases hgt : dgetD dups v0 0 > 1
      · rw [if_pos hgt] at h
        exact ih _ _ _ _ (dkeys_nodup_dinsert _ _ _ hnd) h
      · rw [if_neg hgt] at h
        exact ih _ _ _ _ (dkeys_nodup_dinsert _ _ _ hnd) h

theorem nodup_keys_eq (d : List (String × α)) (hnd : (d.map (·.1)).Nodup)
    (k : String) (a b : α) (ha : (k, a) ∈ d) (hb : (k, b) ∈ d) : a = b := by
  have h1 := mem_dget? d k a hnd ha
  have h2 := mem_dget? d k b hnd hb
  rw [h1] at h2
  injection h2

theorem sortObj_values (o : List (String × String)) (k : String) :
    k ∈ (sortObj o).map (·.2) ↔ k ∈ o.map (·.2) := by
  unfold sortObj
  constructor <;> intro h <;> rcases List.mem_map.1 h with ⟨p, hp, hpk⟩
  · exact List.mem_map.2 ⟨p, (mem_ssort _ p _).1 hp, hpk⟩
  · exact List.mem_map.2 ⟨p, (mem_ssort _ p _).2 hp, hpk⟩

/-- C1: after the Splitter processes a chapter whose raw source map has
distinct keys, a key other than `"date"` appears in some per-file language
object or in the orphan object exactly when it is a key of the chapter's raw
string map, and no key appears in two different per-file objects. -/
theorem c1_emitted_partition (entries rawL : List (String × String))
    (sm : List (String × List (String × String)))
    (hnd : (entries.map (·.1)).Nodup)
    (hsm : buildChSourcemap entries = some sm) :
    (∀ k, k ≠ "date" →
      (((∃ f obj, (f, obj) ∈ (splitLangObjs rawL ([], []) sm).2 ∧
          dmem obj k = true) ∨
        dmem (buildOrphan rawL (splitLangObjs rawL ([], []) sm).1) k = true) ↔
       dmem rawL k = true)) ∧
    (∀ f1 obj1 f2 obj2 k,
      (f1, obj1) ∈ (splitLangObjs rawL ([], []) sm).2 →
      (f2, obj2) ∈ (splitLangObjs rawL ([], []) sm).2 →
      dmem obj1 k = true → dmem obj2 k = true → f1 = f2 ∧ obj1 = obj2) := by
  unfold buildChSourcemap at hsm
  cases hrun : smLoop (buildDupMap entries) ([], 0, []) entries with
  | none =>
    rw [hrun] at hsm
    simp at hsm
  | some st' =>
    rw [hrun] at hsm
    simp at hsm
    have houtnd : (dkeys st'.1).Nodup :=
      smLoop_outer_nodup (buildDupMap entries) entries [] 0 [] st' (by simp) hrun
    have hsrc : ∀ f obj k, (f, obj) ∈ (splitLangObjs rawL ([], []) sm).2 →
        dmem obj k = true →
        dmem rawL k = true ∧ ∃ v l, (k, v) ∈ entries ∧ splitLoc v = some (f, l) := by
      intro f obj k hobj hk
      rcases splitLangObjs_objs_src rawL sm [] [] f obj hobj with hin | ⟨fe, hfe, hiff⟩
      · simp at hin
      · obtain ⟨hkfe, hkraw⟩ := (hiff k).1 hk
        refine ⟨hkraw, ?_⟩
        rw [← hsm] at hfe
        rcases List.mem_map.1 hfe with ⟨⟨pf, po⟩, hp, hpe⟩
        have hf : pf = f := congrArg Prod.fst hpe
        have hfe2 : sortObj po = fe := congrArg Prod.snd hpe
        subst hf
        have hkv : k ∈ po.map (·.2) := (sortObj_values po k).1 (by rw [hfe2]; exact hkfe)
        rcases List.mem_map.1 hkv with ⟨q, hq, hqk⟩
        have hqmem : (q.1, k) ∈ po := by
          obtain ⟨q1, q2⟩ := q
          cases hqk
          exact hq
        have hget : dget? st'.1 pf = some po := mem_dget? st'.1 pf po houtnd hp
        rcases smLoop_value_src (buildDupMap entries) entries [] 0 [] st' hrun
            pf po q.1 k hget hqmem with hL | hR
        · obtain ⟨o0, tok0, h0, _⟩ := hL
          simp at h0
        · exact hR
    constructor
    · intro k hdate
      constructor
      · rintro (⟨f, obj, hobj, hk⟩ | horph)
        · exact (hsrc f obj k hobj hk).1
        · have h := (buildOrphan_mem rawL _ k).1 horph
          rw [dmem, dget?_isSome_iff]
          exact h.1
      · intro hraw
        by_cases hls : dmem (splitLangObjs rawL ([], []) sm).1 k = true
        · rcases splitLangObjs_ls_to_obj rawL sm [] [] k hls with h0 | ⟨f, obj, hobj, hk⟩
          · simp [dmem] at h0
          · exact Or.inl ⟨f, obj, hobj, hk⟩
        · refine Or.inr ((buildOrphan_mem rawL _ k).2 ⟨?_, ?_, hdate⟩)
          · rw [dmem, dget?_isSome_iff] at hraw
            exact hraw
          · rw [Bool.not_eq_true] at hls
            exact hls
    · intro f1 obj1 f2 obj2 k h1 h2 hk1 hk2
      obtain ⟨_, v1, l1, hv1, hs1⟩ := hsrc f1 obj1 k h1 hk1
      obtain ⟨_, v2, l2, hv2, hs2⟩ := hsrc f2 obj2 k h2 hk2
      have hv : v1 = v2 := nodup_keys_eq entries hnd k v1 v2 hv1 hv2
      rw [hv] at hs1
      rw [hs1] at hs2
      have hpair : (f1, l1) = (f2, l2) := by injection hs2
      have hff : f1 = f2 := congrArg Prod.fst hpair
      subst hff
      refine ⟨rfl, ?_⟩
      have hkeys : ((splitLangObjs rawL ([], []) sm).2).map (·.1) = sm.map (·.1) := by
        rw [splitLangObjs_keys]
        simp
      have hsmkeys : sm.map (·.1) = st'.1.map (·.1) := by
        rw [← hsm, List.map_map]
        rfl
      have hobjnd : (((splitLangObjs rawL ([], []) sm).2).map (·.1)).Nodup := by
        rw [hkeys, hsmkeys]
        exact houtnd
      exact nodup_keys_eq _ hobjnd f1 obj1 obj2 h1 h2

/-- Witness for C1: one mapped key and one orphan key. -/
theorem c1_emitted_partition_witness :
    ((∃ f obj, (f, obj) ∈ (splitLangObjs [("k1", "x"), ("orph", "y")] ([], [])
        [("f", [("1", "k1")])]).2 ∧ dmem obj "orph" = true) ∨
      dmem (buildOrphan [("k1", "x"), ("orph", "y")]
        (splitLangObjs [("k1", "x"), ("orph", "y")] ([], [])
          [("f", [("1", "k1")])]).1) "orph" = true) ↔
      dmem [("k1", "x"), ("orph", "y")] "orph" = true :=
  (c1_emitted_partition [("k1", "f:1")] [("k1", "x"), ("orph", "y")]
    [("f", [("1", "k1")])] (by decide) rfl).1 "orph" (by decide)

end TextUtils
